import Mathlib

/-!
# Verification of the Sparta provisioning workflow (`provision_build.go`)

A shallow embedding, in Lean 4, of the provisioning-workflow engine of
`provision_build.go`: the artifact-naming policy, the S3 upload helper, the
IAM role resolution cache, the AWS precondition / Sparta postcondition
validation steps, the in-place-update change-set classification, and the
`Provision` step loop with its rollback / finalizer transaction handling.

Remote collaborators (S3, IAM, CloudFormation, Lambda) are modelled as
explicit oracle functions passed to each definition; machine state that the
Go code mutates is threaded explicitly.  The SHA-1 digest used by the
naming policy is abstracted as a function parameter.
-/

namespace Sparta

/-! ## Go standard-library string helpers used by the workflow -/

/-- Model of Go `path.Ext` scanning: walks the path from its last character
backwards (the input here is the reversed character list), stopping at a
path separator, and returns the suffix starting at the final dot. -/
def goPathExtAux : List Char → Option (List Char)
  | [] => none
  | c :: rest =>
    if c = '/' then none
    else if c = '.' then some ['.']
    else (goPathExtAux rest).map (fun e => e ++ [c])

/-- Model of Go `path.Ext`: the file name extension of the last
slash-separated element, from the final dot to the end; empty if there is
no dot. -/
def goPathExt (s : String) : String :=
  match goPathExtAux s.data.reverse with
  | none => ""
  | some e => String.mk e

/-- Model of Go `strings.TrimSuffix`: drops a trailing `suffix` when
present, otherwise returns the string unchanged. -/
def goTrimSuffix (s suffix : String) : String :=
  if suffix.data.isSuffixOf s.data then
    String.mk (s.data.take (s.data.length - suffix.data.length))
  else s

/-- The decimal digit character for `d < 10`. -/
def decDigitChar (d : Nat) : Char := Char.ofNat (48 + d)

/-- Decimal digit string of a natural number, most significant digit
first: the model of Go `fmt.Sprintf` with the `%d` verb (for the
non-negative values produced by `time.Now().UnixNano()`). -/
def decDigits (n : Nat) : List Char :=
  if _h : n < 10 then [decDigitChar n]
  else decDigits (n / 10) ++ [decDigitChar (n % 10)]
termination_by n
decreasing_by exact Nat.div_lt_self (by omega) (by omega)

/-- Decimal rendering of a natural number as a string. -/
def natRepr (n : Nat) : String := String.mk (decDigits n)

/-- Reads a digit list back into the value it denotes. -/
def decVal (l : List Char) : Nat :=
  l.foldl (fun acc c => 10 * acc + (c.toNat - 48)) 0

/-! ## Artifact naming policy (`versionAwareS3KeyName`) -/

/-- Embedding of `versionAwareS3KeyName` (provision_build.go:500).  The
SHA-1 hex digest is abstracted as the parameter `sha1hex`; `now` is the
value of `time.Now().UnixNano()`.  The Go function's error return is dead
code (a `sha1` hash write never fails), so the embedding is total:

```go
versionKeyName := s3DefaultKey
if !s3VersioningEnabled {
    extension := path.Ext(s3DefaultKey)
    prefixString := strings.TrimSuffix(s3DefaultKey, extension)
    salt := fmt.Sprintf("%s-%d", s3DefaultKey, time.Now().UnixNano())
    versionKeyName = fmt.Sprintf("%s-%s%s", prefixString,
        hex.EncodeToString(hash.Sum(nil)), extension)
}
``` -/
def versionAwareS3KeyName (sha1hex : String → String) (now : Nat)
    (s3DefaultKey : String) (s3VersioningEnabled : Bool) : String :=
  if s3VersioningEnabled then s3DefaultKey
  else
    let extension := goPathExt s3DefaultKey
    let prefixString := goTrimSuffix s3DefaultKey extension
    let salt := s3DefaultKey ++ "-" ++ natRepr now
    prefixString ++ "-" ++ sha1hex salt ++ extension

/-! ## S3 upload URLs and the upload helper -/

/-- Embedding of the `s3UploadURL` type (provision_build.go:65): a parsed
stored-object reference with the full location, the object key (`path`)
and an optional object version (empty string when absent). -/
structure S3UploadURL where
  location : String
  path : String
  version : String
deriving DecidableEq, Repr

/-- Embedding of `(*s3UploadURL).keyName` (provision_build.go:71). -/
def S3UploadURL.keyName (u : S3UploadURL) : String := u.path

/-- Embedding of `codeZipKey` (provision_build.go:96): the key of an
optional upload URL, empty when the URL is `nil`. -/
def codeZipKey (url : Option S3UploadURL) : String :=
  match url with
  | none => ""
  | some u => u.keyName

/-- Embedding of `codeZipVersion` (provision_build.go:102). -/
def codeZipVersion (url : Option S3UploadURL) : String :=
  match url with
  | none => ""
  | some u => u.version

/-- Model of Go `filepath.Base` on a Unix path: `"."` for the empty path,
trailing separators stripped, then the last path element (`"/"` when the
path consists only of separators). -/
def goFilepathBase (p : String) : String :=
  if p = "" then "."
  else
    let trimmed := (p.data.reverse.dropWhile (fun c => c = '/')).reverse
    if trimmed = [] then "/"
    else String.mk ((trimmed.reverse.takeWhile (fun c => c ≠ '/')).reverse)

/-- Side effects recorded by the upload helper: remote S3 upload calls
made, file-cleanup finalizers registered (`registerFileCleanupFinalizer`)
and S3-delete rollback functions registered (`registerRollback`). -/
structure UploadEffects where
  remoteUploadCalls : List (String × String × String)
  cleanupFinalizers : List String
  rollbacks : List String
deriving DecidableEq, Repr

/-- Embedding of `uploadLocalFileToS3` (provision_build.go:530).  The
remote collaborator `spartaS3.UploadLocalFileToS3` is the oracle
`remoteUpload` (taking the local path, bucket and key and returning the
location URL or an error).  In `noop` (dry-run) mode no remote call is
made, nothing is registered, and a synthetic location URL is produced;
otherwise a cleanup finalizer is registered before the upload and an
S3-delete rollback is registered after a successful upload. -/
def uploadLocalFileToS3 (sha1hex : String → String) (now : Nat)
    (localPath s3ObjectKey : String)
    (serviceName s3Bucket : String) (noop s3BucketVersioningEnabled : Bool)
    (remoteUpload : String → String → String → Except String String) :
    Except String String × UploadEffects :=
  let key :=
    if s3ObjectKey = "" then
      versionAwareS3KeyName sha1hex now
        (serviceName ++ "/" ++ goFilepathBase localPath)
        s3BucketVersioningEnabled
    else s3ObjectKey
  if noop then
    (Except.ok ("https://" ++ s3Bucket ++ "-s3.amazonaws.com/" ++ key),
      ⟨[], [], []⟩)
  else
    match remoteUpload localPath s3Bucket key with
    | Except.error e =>
      (Except.error ("Failed to upload local file to S3: " ++ e),
        ⟨[(localPath, s3Bucket, key)], [localPath], []⟩)
    | Except.ok loc =>
      (Except.ok loc, ⟨[(localPath, s3Bucket, key)], [localPath], [loc]⟩)

/-! ## IAM role resolution (`verifyIAMRoles`) -/

/-- A resolved role handle: either a forward reference
(`gocf.GetAtt(logicalName, "Arn")`) to an inline role-definition resource,
or a literal ARN string returned by the IAM `GetRole` call. -/
inductive RoleExpr where
  | getAtt (logicalName : String)
  | literal (arn : String)
deriving DecidableEq, Repr

/-- A per-function custom resource, as consulted by `verifyIAMRoles`:
an optional literal role name (`""` when absent) and an optional inline
role definition identified by the user function name. -/
structure CustomResourceInfo where
  roleName : String
  hasRoleDefinition : Bool
  userFunctionName : String
deriving DecidableEq, Repr

/-- The slice of `LambdaAWSInfo` consulted by the provisioning engine:
an optional literal role name (`""` when absent), an optional inline role
definition, the lambda function name, and custom resources. -/
structure LambdaAWSInfo where
  roleName : String
  hasRoleDefinition : Bool
  functionName : String
  customResources : List CustomResourceInfo
deriving DecidableEq, Repr

/-- Modelled from the spec: `IAMRoleDefinition.logicalName` is not under
`src/`; per the spec an inline role definition is deduplicated by "a
content-derived logical name (service name + function name)". -/
def roleDefLogicalName (serviceName functionName : String) : String :=
  serviceName ++ functionName

/-- The observable outcome of `verifyIAMRoles`: the resolved role map
(an association list in insertion order), the logical names registered as
template resources via `AddResource` (in order), and the IAM `GetRole`
existence checks issued (in order). -/
structure RoleResolutionState where
  roleMap : List (String × RoleExpr)
  addedResources : List String
  getRoleCalls : List String
deriving DecidableEq, Repr

/-- Association-list key membership, mirroring the Go map existence
check `_, exists := m[k]`. -/
def mapHasKey (m : List (String × RoleExpr)) (k : String) : Bool :=
  m.any (fun kv => kv.1 = k)

/-- Phase 1 of `verifyIAMRoles` for one inline role definition
(provision_build.go:639, 655): when the content-derived logical name is
not yet in the role map, register the role resource and map the name to a
forward `GetAtt` reference. -/
def resolveInlineDefinition (st : RoleResolutionState) (logicalName : String) :
    RoleResolutionState :=
  if mapHasKey st.roleMap logicalName then st
  else
    { roleMap := st.roleMap ++ [(logicalName, RoleExpr.getAtt logicalName)]
      addedResources := st.addedResources ++ [logicalName]
      getRoleCalls := st.getRoleCalls }

/-- Phase 1 of `verifyIAMRoles` for one `LambdaAWSInfo`: the lambda's own
inline role definition, then those of its custom resources. -/
def resolveLambdaDefinitions (serviceName : String) (st : RoleResolutionState)
    (info : LambdaAWSInfo) : RoleResolutionState :=
  let st1 :=
    if info.hasRoleDefinition then
      resolveInlineDefinition st (roleDefLogicalName serviceName info.functionName)
    else st
  info.customResources.foldl
    (fun acc cr =>
      if cr.hasRoleDefinition then
        resolveInlineDefinition acc (roleDefLogicalName serviceName cr.userFunctionName)
      else acc)
    st1

/-- The literal role names collected into `allRoleNames`
(provision_build.go:616): for each lambda, its own non-empty `RoleName`,
then the non-empty role names of its custom resources. -/
def allRoleNames (infos : List LambdaAWSInfo) : List String :=
  infos.foldl
    (fun acc info =>
      let acc1 := if info.roleName ≠ "" then acc ++ [info.roleName] else acc
      info.customResources.foldl
        (fun a cr => if cr.roleName ≠ "" then a ++ [cr.roleName] else a)
        acc1)
    []

/-- Phase 2 of `verifyIAMRoles` (provision_build.go:673): check each
collected literal role name; names already in the map are skipped, others
are resolved with one `GetRole` call, whose failure aborts the whole
step. -/
def resolveLiteralNames (getRole : String → Except String String)
    (st : RoleResolutionState) :
    List String → Except String RoleResolutionState
  | [] => Except.ok st
  | name :: rest =>
    if mapHasKey st.roleMap name then resolveLiteralNames getRole st rest
    else
      match getRole name with
      | Except.error e => Except.error e
      | Except.ok arn =>
        resolveLiteralNames getRole
          { roleMap := st.roleMap ++ [(name, RoleExpr.literal arn)]
            addedResources := st.addedResources
            getRoleCalls := st.getRoleCalls ++ [name] }
          rest

/-- Embedding of `verifyIAMRoles` (provision_build.go:605): phase 1
registers every distinct inline role-definition logical name (the role
map starts empty), then phase 2 resolves the collected literal role
names through the IAM `GetRole` oracle.  The profiling decorator is the
`nil` default. -/
def verifyIAMRoles (serviceName : String)
    (getRole : String → Except String String)
    (infos : List LambdaAWSInfo) : Except String RoleResolutionState :=
  let st1 := infos.foldl (resolveLambdaDefinitions serviceName) ⟨[], [], []⟩
  resolveLiteralNames getRole st1 (allRoleNames infos)

/-- Specification-side list of the inline role-definition logical names
contributed by one lambda (its own definition first, then those of its
custom resources), duplicates preserved. -/
def inlineNamesOf (serviceName : String) (info : LambdaAWSInfo) :
    List String :=
  (if info.hasRoleDefinition then
    [roleDefLogicalName serviceName info.functionName]
  else []) ++
    info.customResources.filterMap (fun cr =>
      if cr.hasRoleDefinition then
        some (roleDefLogicalName serviceName cr.userFunctionName)
      else none)

/-- Specification-side list of every inline role-definition logical name
of a run, duplicates preserved. -/
def inlineLogicalNames (serviceName : String) (infos : List LambdaAWSInfo) :
    List String :=
  infos.flatMap (inlineNamesOf serviceName)

/-- The keys of the role map, in insertion order. -/
def mapKeys (m : List (String × RoleExpr)) : List String := m.map Prod.fst

/-! ## AWS precondition verification (`verifyAWSPreconditions`) -/

/-- Embedding of `verifyAWSPreconditions` (provision_build.go:698).
Inputs: the current `s3BucketVersioningEnabled` flag, the dry-run flag,
the number of deployable functions, the bucket name, the active session's
region, the CodePipeline trigger key, and the two S3 oracles
(`BucketVersioningEnabled` and `BucketRegion`).  The result is the new
`s3BucketVersioningEnabled` flag; success means the step returns
`createPackageStep()` as the next step, an error stops the workflow.  The
global `codePipelineEnvironments` registry is the `nil` default (its
non-nil branch only emits a warning). -/
def verifyAWSPreconditions (s3BucketVersioningEnabled : Bool)
    (noop : Bool) (lambdaCount : Nat) (s3Bucket sessionRegion : String)
    (codePipelineTrigger : String)
    (bucketVersioningOracle : Except String Bool)
    (bucketRegionOracle : Except String String) : Except String Bool :=
  if noop then Except.ok s3BucketVersioningEnabled
  else if lambdaCount ≠ 0 then
    match bucketVersioningOracle with
    | Except.error e => Except.error e
    | Except.ok isEnabled =>
      if codePipelineTrigger ≠ "" ∧ ¬isEnabled then
        Except.error ("s3 Bucket (" ++ s3Bucket ++
          ") for CodePipeline trigger doesn't have a versioning policy enabled")
      else
        match bucketRegionOracle with
        | Except.error e =>
          Except.error ("failed to determine region for " ++ s3Bucket ++
            ". Error: " ++ e)
        | Except.ok bucketRegion =>
          if bucketRegion ≠ sessionRegion then
            Except.error ("region (" ++ sessionRegion ++
              ") does not match bucket region (" ++ bucketRegion ++ ")")
          else Except.ok isEnabled
  else Except.ok s3BucketVersioningEnabled

/-! ## In-place update classification (`applyInPlaceFunctionUpdates`) -/

/-- One entry of the computed CloudFormation change set
(`ResourceChange`). -/
structure ResourceChange where
  action : String
  resourceType : String
  logicalResourceId : String
  physicalResourceId : String
deriving DecidableEq, Repr

/-- One `lambda.UpdateFunctionCodeInput` request built for a conforming
change. -/
structure UpdateFunctionCodeInput where
  functionName : String
  s3Bucket : String
  s3Key : String
  s3ObjectVersion : Option String
deriving DecidableEq, Repr

/-- Whether a change is a `Modify` action on a Lambda function resource
(the only change kind an in-place update accepts). -/
def isFunctionCodeModify (ch : ResourceChange) : Bool :=
  ch.action = "Modify" ∧ ch.resourceType = "AWS::Lambda::Function"

/-- The description recorded for an unsupported change
(provision_build.go:1117). -/
def invalidInPlaceMsg (ch : ResourceChange) : String :=
  ch.action ++ " for " ++ ch.logicalResourceId ++
    " (ResourceType: " ++ ch.resourceType ++ ")"

/-- Outcome of the change-set classification inside
`applyInPlaceFunctionUpdates`:
* `panicNilDeref` — the Go code evaluated
  `ctx.context.s3CodeZipURL.keyName()` with a `nil` `s3CodeZipURL`, a nil
  pointer dereference (the `nil` guard at provision_build.go:1112 only
  protects the later `version` read);
* `errNoChanges` / `invalidOps` — the error returns;
* `updates` — the per-function code-update requests that are then issued
  concurrently. -/
inductive InPlaceResult where
  | panicNilDeref
  | errNoChanges
  | invalidOps (msgs : List String)
  | updates (reqs : List UpdateFunctionCodeInput)
deriving DecidableEq, Repr

/-- The `lambda.UpdateFunctionCodeInput` built for a conforming change
(provision_build.go:1107): the key is read from the upload URL, and the
object version is attached only when non-empty. -/
def mkUpdateRequest (s3Bucket : String) (u : S3UploadURL)
    (ch : ResourceChange) : UpdateFunctionCodeInput :=
  { functionName := ch.physicalResourceId
    s3Bucket := s3Bucket
    s3Key := u.keyName
    s3ObjectVersion := if u.version ≠ "" then some u.version else none }

/-- The classification loop of `applyInPlaceFunctionUpdates`
(provision_build.go:1104): accumulates the code-update requests for
conforming changes and the descriptions of the unsupported ones;
`none` models the nil-dereference panic on building a request while
`s3CodeZipURL` is `nil`. -/
def classifyChanges (s3Bucket : String) (s3CodeZipURL : Option S3UploadURL) :
    List ResourceChange →
    Option (List UpdateFunctionCodeInput × List String)
  | [] => some ([], [])
  | ch :: rest =>
    if isFunctionCodeModify ch then
      match s3CodeZipURL with
      | none => none
      | some u =>
        (classifyChanges s3Bucket s3CodeZipURL rest).map
          (fun p => (mkUpdateRequest s3Bucket u ch :: p.1, p.2))
    else
      (classifyChanges s3Bucket s3CodeZipURL rest).map
        (fun p => (p.1, invalidInPlaceMsg ch :: p.2))

/-- Embedding of the decision logic of `applyInPlaceFunctionUpdates`
(provision_build.go:1085) after the change set has been computed: empty
change sets are an error, any unsupported change fails the operation
listing every offending change, and only otherwise are the function-code
update calls issued. -/
def applyInPlaceFunctionUpdates (s3Bucket : String)
    (s3CodeZipURL : Option S3UploadURL)
    (changes : List ResourceChange) : InPlaceResult :=
  if changes.length = 0 then InPlaceResult.errNoChanges
  else
    match classifyChanges s3Bucket s3CodeZipURL changes with
    | none => InPlaceResult.panicNilDeref
    | some (reqs, invalid) =>
      if invalid ≠ [] then InPlaceResult.invalidOps invalid
      else InPlaceResult.updates reqs

/-! ## Sparta postcondition validation (`validateSpartaPostconditions`) -/

/-- Embedding of the `envVarDiscoveryInformation` constant — the
environment key under which the discovery information is published into
the execution environment (constants block reproduced in
docs_source/content/_index.md:258). -/
def envVarDiscoveryInformation : String := "SPARTA_DISCOVERY_INFO"

/-- Embedding of the `envVarLogLevel` constant — the environment key
carrying the provision-time log level into the execution environment
(constants block reproduced in docs_source/content/_index.md:252). -/
def envVarLogLevel : String := "SPARTA_LOG_LEVEL"

/-- The required environment variables (provision_build.go:1291). -/
def requiredEnvVars : List String :=
  [envVarDiscoveryInformation, envVarLogLevel]

/-- The `Environment.Variables` field of a Lambda function resource: the
Go value is an `interface{}` that is either the supported
`map[string]interface{}` (modelled as an association list of keys) or a
value of some other dynamic type. -/
inductive EnvVariables where
  | varsMap (keys : List String)
  | unsupported (typeName : String)
deriving DecidableEq, Repr

/-- The template-resource properties the postcondition validator matches
on: a Lambda function (with its optional `Environment` block) or any
other resource kind. -/
inductive ResourceProps where
  | lambdaFunction (environment : Option EnvVariables)
  | other (resourceType : String)
deriving DecidableEq, Repr

/-- The validation errors collected for one template resource
(provision_build.go:1295): non-Lambda resources contribute nothing; a
Lambda function without an `Environment` block or with variables of an
unsupported dynamic type contributes one error; otherwise one error per
missing required key. -/
def resourceValidationErrs (resourceID : String) (props : ResourceProps) :
    List String :=
  match props with
  | ResourceProps.other _ => []
  | ResourceProps.lambdaFunction none =>
    ["Lambda function " ++ resourceID ++ " does not include environment info"]
  | ResourceProps.lambdaFunction (some (EnvVariables.unsupported t)) =>
    ["Lambda function " ++ resourceID ++
      " environment vars are unsupported type: " ++ t]
  | ResourceProps.lambdaFunction (some (EnvVariables.varsMap keys)) =>
    requiredEnvVars.filterMap
      (fun k =>
        if keys.contains k then none
        else some ("Lambda function " ++ resourceID ++
          " environment does not include key: " ++ k))

/-- The aggregated `validateErrs` list of `validateSpartaPostconditions`
(provision_build.go:1289), over the template's resources. -/
def spartaPostconditionErrs (resources : List (String × ResourceProps)) :
    List String :=
  resources.flatMap (fun r => resourceValidationErrs r.1 r.2)

/-- Embedding of `validateSpartaPostconditions` (provision_build.go:1287):
fails with the aggregated error list when any validation error was
collected, and otherwise continues to `ensureCloudFormationStack()`
(modelled as `ok`). -/
def validateSpartaPostconditions (resources : List (String × ResourceProps)) :
    Except (List String) Unit :=
  if spartaPostconditionErrs resources ≠ [] then
    Except.error (spartaPostconditionErrs resources)
  else Except.ok ()

/-- Specification-side predicate: a resource lacking its required
environment setup — a deployable-function resource with no environment
block, with variables of an unsupported dynamic type, or missing one of
the required keys. -/
def lacksRequiredEnv (props : ResourceProps) : Bool :=
  match props with
  | ResourceProps.other _ => false
  | ResourceProps.lambdaFunction none => true
  | ResourceProps.lambdaFunction (some (EnvVariables.unsupported _)) => true
  | ResourceProps.lambdaFunction (some (EnvVariables.varsMap keys)) =>
    requiredEnvVars.any (fun k => ! keys.contains k)

/-- Specification-side count of aggregated error entries contributed by
one resource: one per missing required key for a function resource with a
supported variables map, a single entry for a function resource whose
environment is absent or of an unsupported type, none otherwise. -/
def expectedErrCount (props : ResourceProps) : Nat :=
  match props with
  | ResourceProps.other _ => 0
  | ResourceProps.lambdaFunction none => 1
  | ResourceProps.lambdaFunction (some (EnvVariables.unsupported _)) => 1
  | ResourceProps.lambdaFunction (some (EnvVariables.varsMap keys)) =>
    (requiredEnvVars.filter (fun k => ! keys.contains k)).length

/-! ## The `Provision` step loop, rollback and finalizers -/

/-- The transaction state threaded through the workflow steps: the
registered rollback functions and finalizer functions (identified by
numeric tags, registered in order). -/
structure TxState where
  rollbackFunctions : List Nat
  finalizerFunctions : List Nat
deriving DecidableEq, Repr

/-- A workflow step as observed by the `Provision` loop: it may mutate
the transaction state and either succeeds (continuing to the next step)
or returns an error. -/
def StepFn : Type := TxState → TxState × Option String

/-- The error wrapping applied by the `Provision` loop
(provision_build.go:1601). -/
def wrapProvisionError (e : String) : String :=
  "Failed to provision service: " ++ e

/-- The observable outcome of one `Provision` run:
* `stepResults` — the outcome of every step actually invoked, in order;
* `rollbackInvocations` — each invocation of `ctx.rollback()`, recording
  the rollback functions registered at that moment (they are then run
  concurrently);
* `finalizersInvoked` — the finalizer functions run after the loop, in
  registration order;
* `finalState` — the transaction state when the loop stopped;
* `result` — the error returned by `Provision`, `none` on success. -/
structure RunOutcome where
  stepResults : List (Option String)
  rollbackInvocations : List (List Nat)
  finalizersInvoked : List Nat
  finalState : TxState
  result : Option String
deriving Repr

/-- The observable outcome of the step loop alone (before the finalizer
block): the invoked steps' results, the rollback invocations, the final
transaction state, and the (wrapped) error, if any. -/
structure LoopOut where
  stepResults : List (Option String)
  rollbackInvocations : List (List Nat)
  finalTx : TxState
  result : Option String
deriving Repr

/-- The step loop of `Provision` (provision_build.go:1594): invoke each
step; on an error, invoke rollback once (running the rollback functions
registered so far) and return the wrapped error immediately; on a `nil`
next step, exit the loop normally. -/
def runStepLoop : List StepFn → TxState → LoopOut
  | [], s => ⟨[], [], s, none⟩
  | f :: rest, s =>
    let fr := f s
    match fr.2 with
    | some e =>
      ⟨[some e], [fr.1.rollbackFunctions], fr.1, some (wrapProvisionError e)⟩
    | none =>
      let r := runStepLoop rest fr.1
      ⟨none :: r.stepResults, r.rollbackInvocations, r.finalTx, r.result⟩

/-- Embedding of the `Provision` loop plus the finalizer block
(provision_build.go:1594, 1623): the error path `return`s the wrapped
error directly after rollback, so the finalizer block after the loop is
reached only on the success path. -/
def provisionRun (steps : List StepFn) (s : TxState) : RunOutcome :=
  let r := runStepLoop steps s
  match r.result with
  | some w => ⟨r.stepResults, r.rollbackInvocations, [], r.finalTx, some w⟩
  | none =>
    ⟨r.stepResults, r.rollbackInvocations, r.finalTx.finalizerFunctions,
      r.finalTx, none⟩

/-- Modelled from the spec: `validateSpartaPreconditions` is not under
`src/`; per the spec, `Provision` "validates preconditions (at least one
deployable function or at least one extension hook must be present; fails
otherwise)" — that check is the explicit test below, so the call itself
imposes nothing further and is modelled as always succeeding. -/
def validateSpartaPreconditions (_infos : List LambdaAWSInfo) : Option String :=
  none

/-- Embedding of the entry logic of `Provision` (provision_build.go:1513):
validate preconditions, then fail with "no functions provided" when the
function list is empty and no workflow hooks were supplied (with hooks the
empty list is only a warning), and otherwise drive the step loop.
`hooks = none` models a `nil` `*WorkflowHooks`. -/
def Provision (infos : List LambdaAWSInfo) (hooks : Option Unit)
    (steps : List StepFn) (s : TxState) : RunOutcome :=
  match validateSpartaPreconditions infos with
  | some e =>
    ⟨[], [], [], s, some ("Failed to validate preconditions: " ++ e)⟩
  | none =>
    if infos.length ≤ 0 ∧ hooks = none then
      ⟨[], [], [], s, some ("No lambda functions provided to Sparta.Provision()")⟩
    else provisionRun steps s

/-! ## Helper lemmas -/

theorem toNat_decDigitChar (d : Nat) (hd : d < 10) :
    (decDigitChar d).toNat = 48 + d := by
  interval_cases d <;> rfl

theorem foldl_decVal_decDigits (n : Nat) : ∀ a : Nat,
    List.foldl (fun acc c => 10 * acc + (c.toNat - 48)) a (decDigits n) =
      a * 10 ^ (decDigits n).length + n := by
  induction n using Nat.strong_induction_on with
  | _ n ih =>
    intro a
    rw [decDigits]
    by_cases h : n < 10
    · simp only [h, dif_pos, List.foldl_cons, List.foldl_nil, List.length_cons,
        List.length_nil, toNat_decDigitChar n h]
      ring_nf
      omega
    · have hn : n / 10 < n := Nat.div_lt_self (by omega) (by omega)
      simp only [h, dif_neg, not_false_iff, List.foldl_append, List.foldl_cons,
        List.foldl_nil, List.length_append, List.length_cons, List.length_nil]
      rw [ih (n / 10) hn a]
      rw [toNat_decDigitChar (n % 10) (Nat.mod_lt n (by omega))]
      have hdm : 10 * (n / 10) + n % 10 = n := Nat.div_add_mod n 10
      ring_nf
      omega

theorem decVal_decDigits (n : Nat) : decVal (decDigits n) = n := by
  have h := foldl_decVal_decDigits n 0
  simpa [decVal] using h

theorem decDigits_injective : Function.Injective decDigits := by
  intro m n h
  have hm := decVal_decDigits m
  have hn := decVal_decDigits n
  rw [h] at hm
  omega

theorem natRepr_injective : Function.Injective natRepr := by
  intro m n h
  exact decDigits_injective (congrArg String.data h)

theorem data_append (s t : String) : (s ++ t).data = s.data ++ t.data := by
  cases s
  cases t
  rfl

/-- C3: with versioning enabled the artifact naming policy returns the
default key unchanged; with versioning disabled it returns
`<prefix>-<hex hash><extension>` where the hash digests the default key
and the current time, so (the digest being collision-free) two calls with
the same default key at different times produce different keys. -/
theorem versionAwareS3KeyName_policy
    (sha1hex : String → String) (key : String) (t1 t2 : Nat)
    (hinj : Function.Injective sha1hex) (hne : t1 ≠ t2) :
    (∀ t, versionAwareS3KeyName sha1hex t key true = key) ∧
    (∀ t, versionAwareS3KeyName sha1hex t key false =
      goTrimSuffix key (goPathExt key) ++ "-" ++
        sha1hex (key ++ "-" ++ natRepr t) ++ goPathExt key) ∧
    versionAwareS3KeyName sha1hex t1 key false ≠
      versionAwareS3KeyName sha1hex t2 key false := by
  refine ⟨fun t => rfl, fun t => rfl, fun heq => ?_⟩
  have e1 : versionAwareS3KeyName sha1hex t1 key false =
      goTrimSuffix key (goPathExt key) ++ "-" ++
        sha1hex (key ++ "-" ++ natRepr t1) ++ goPathExt key := rfl
  have e2 : versionAwareS3KeyName sha1hex t2 key false =
      goTrimSuffix key (goPathExt key) ++ "-" ++
        sha1hex (key ++ "-" ++ natRepr t2) ++ goPathExt key := rfl
  rw [e1, e2] at heq
  have hd := congrArg String.data heq
  simp only [data_append, List.append_assoc] at hd
  have hd1 := List.append_cancel_left hd
  have hd2 := List.append_cancel_left hd1
  have hd3 := List.append_cancel_right hd2
  have hsalt := hinj (String.ext hd3)
  have hds := congrArg String.data hsalt
  simp only [data_append, List.append_assoc] at hds
  have hds1 := List.append_cancel_left hds
  have hds2 := List.append_cancel_left hds1
  exact hne (natRepr_injective (String.ext hds2))

/-- Witness for C3 at the identity digest and the key `svc/code.zip`. -/
theorem versionAwareS3KeyName_policy_witness :
    versionAwareS3KeyName (fun s => s) 0 "svc/code.zip" false ≠
        versionAwareS3KeyName (fun s => s) 1 "svc/code.zip" false ∧
      versionAwareS3KeyName (fun s => s) 0 "svc/code.zip" true = "svc/code.zip" :=
  ⟨(versionAwareS3KeyName_policy (fun s => s) "svc/code.zip" 0 1
      (fun _ _ h => h) (by decide)).2.2,
    (versionAwareS3KeyName_policy (fun s => s) "svc/code.zip" 0 1
      (fun _ _ h => h) (by decide)).1 0⟩

/-- C8: a dry-run upload makes no remote upload call, registers neither a
rollback action nor a file-cleanup finalizer, returns the synthetic
location URL `https://<bucket>-s3.amazonaws.com/<key>`, and — the dry-run
precondition step leaving the versioning flag `false` — the key is the
salted variant of the default key `<serviceName>/<basename>`. -/
theorem uploadLocalFileToS3_dryRun
    (sha1hex : String → String) (now : Nat)
    (localPath serviceName s3Bucket : String)
    (remoteUpload : String → String → String → Except String String) :
    uploadLocalFileToS3 sha1hex now localPath "" serviceName s3Bucket
        true false remoteUpload =
      (Except.ok ("https://" ++ s3Bucket ++ "-s3.amazonaws.com/" ++
          versionAwareS3KeyName sha1hex now
            (serviceName ++ "/" ++ goFilepathBase localPath) false),
        ⟨[], [], []⟩) ∧
    (∀ (n : Nat) (bucket region trigger : String)
        (vOracle : Except String Bool) (rOracle : Except String String),
      verifyAWSPreconditions false true n bucket region trigger
          vOracle rOracle = Except.ok false) ∧
    versionAwareS3KeyName sha1hex now
        (serviceName ++ "/" ++ goFilepathBase localPath) false =
      goTrimSuffix (serviceName ++ "/" ++ goFilepathBase localPath)
          (goPathExt (serviceName ++ "/" ++ goFilepathBase localPath)) ++
        "-" ++
        sha1hex ((serviceName ++ "/" ++ goFilepathBase localPath) ++ "-" ++
          natRepr now) ++
        goPathExt (serviceName ++ "/" ++ goFilepathBase localPath) :=
  ⟨rfl, fun _ _ _ _ _ _ => rfl, rfl⟩

/-- C7 counterexample: a non-dry-run run with zero deployable functions
(a hooks-only service) skips the bucket checks entirely: with bucket
region `us-east-1` and session region `us-west-2` the precondition step
succeeds instead of failing with a region-mismatch error. -/
theorem verifyAWSPreconditions_zero_lambda_counterexample :
    verifyAWSPreconditions false false 0 "bucket" "us-west-2" ""
        (Except.ok true) (Except.ok "us-east-1") = Except.ok false := rfl

/-- C7 (amended): for every non-dry-run run with at least one deployable
function, whose bucket-versioning and bucket-region lookups succeed and
whose pipeline-trigger versioning requirement is satisfied, the
precondition step fails with the region-mismatch error whenever the
bucket region differs from the session region; the failing step returns
no next step, so the packaging step never begins. -/
theorem verifyAWSPreconditions_region_mismatch
    (flag isEnabled : Bool) (lambdaCount : Nat)
    (s3Bucket sessionRegion bucketRegion trigger : String)
    (hcount : lambdaCount ≠ 0)
    (htrigger : ¬(trigger ≠ "" ∧ ¬isEnabled = true))
    (hregion : bucketRegion ≠ sessionRegion) :
    verifyAWSPreconditions flag false lambdaCount s3Bucket sessionRegion
        trigger (Except.ok isEnabled) (Except.ok bucketRegion) =
      Except.error ("region (" ++ sessionRegion ++
        ") does not match bucket region (" ++ bucketRegion ++ ")") := by
  simp only [verifyAWSPreconditions, Bool.false_eq_true, if_false]
  rw [if_pos hcount, if_neg htrigger, if_pos hregion]

/-- Witness for C7's amended theorem at one function and concrete
mismatching regions. -/
theorem verifyAWSPreconditions_region_mismatch_witness :
    verifyAWSPreconditions false false 1 "bucket" "us-west-2" ""
        (Except.ok true) (Except.ok "us-east-1") =
      Except.error ("region (" ++ "us-west-2" ++
        ") does not match bucket region (" ++ "us-east-1" ++ ")") :=
  verifyAWSPreconditions_region_mismatch false true 1 "bucket" "us-west-2"
    "us-east-1" "" (by decide) (by decide) (by decide)

/-- C4 counterexample: with a `nil` code-archive upload location and a
change set holding a conforming Modify-on-Lambda change ahead of a
non-conforming Add change, the operation hits the nil dereference while
building the update request instead of failing with the error that
enumerates the offending Add change. -/
theorem applyInPlaceFunctionUpdates_nilURL_counterexample :
    applyInPlaceFunctionUpdates "bucket" none
        [⟨"Modify", "AWS::Lambda::Function", "MyLambda", "my-lambda"⟩,
          ⟨"Add", "AWS::S3::Bucket", "MyBucket", "bkt"⟩] =
      InPlaceResult.panicNilDeref ∧
    applyInPlaceFunctionUpdates "bucket" none
        [⟨"Modify", "AWS::Lambda::Function", "MyLambda", "my-lambda"⟩,
          ⟨"Add", "AWS::S3::Bucket", "MyBucket", "bkt"⟩] ≠
      InPlaceResult.invalidOps
        [invalidInPlaceMsg ⟨"Add", "AWS::S3::Bucket", "MyBucket", "bkt"⟩] := by
  exact ⟨rfl, by decide⟩

theorem classifyChanges_some (s3Bucket : String) (u : S3UploadURL) :
    ∀ changes : List ResourceChange,
      classifyChanges s3Bucket (some u) changes =
        some ((changes.filter (fun ch => isFunctionCodeModify ch)).map
            (mkUpdateRequest s3Bucket u),
          (changes.filter (fun ch => ! isFunctionCodeModify ch)).map
            invalidInPlaceMsg)
  | [] => rfl
  | ch :: rest => by
    by_cases h : isFunctionCodeModify ch = true
    · simp [classifyChanges, h, classifyChanges_some s3Bucket u rest,
        List.filter_cons]
    · simp [classifyChanges, h, classifyChanges_some s3Bucket u rest,
        List.filter_cons, Bool.not_eq_true]

/-- C4 (amended): provided the code-archive upload location is non-nil,
an in-place update attempt whose change set contains at least one change
that is not a Modify action on a Lambda-function resource fails with an
error enumerating every offending change's action, logical id and
resource type, and never reaches the branch that issues the
function-code-update calls. -/
theorem applyInPlaceFunctionUpdates_rejects_invalid
    (s3Bucket : String) (u : S3UploadURL) (changes : List ResourceChange)
    (hbad : ∃ ch ∈ changes, ¬ isFunctionCodeModify ch = true) :
    applyInPlaceFunctionUpdates s3Bucket (some u) changes =
      InPlaceResult.invalidOps
        ((changes.filter (fun ch => ! isFunctionCodeModify ch)).map
          invalidInPlaceMsg) ∧
    ∀ reqs, applyInPlaceFunctionUpdates s3Bucket (some u) changes ≠
      InPlaceResult.updates reqs := by
  obtain ⟨ch, hmem, hch⟩ := hbad
  have hlen : changes.length ≠ 0 := by
    cases changes with
    | nil => cases hmem
    | cons a l => simp
  have hne : (changes.filter (fun c => ! isFunctionCodeModify c)).map
      invalidInPlaceMsg ≠ [] := by
    have : ch ∈ changes.filter (fun c => ! isFunctionCodeModify c) := by
      rw [List.mem_filter]
      exact ⟨hmem, by simp [hch]⟩
    intro hnil
    rw [List.map_eq_nil_iff] at hnil
    rw [hnil] at this
    cases this
  have hres : applyInPlaceFunctionUpdates s3Bucket (some u) changes =
      InPlaceResult.invalidOps
        ((changes.filter (fun c => ! isFunctionCodeModify c)).map
          invalidInPlaceMsg) := by
    unfold applyInPlaceFunctionUpdates
    rw [if_neg hlen, classifyChanges_some s3Bucket u changes]
    simp only
    rw [if_pos hne]
  exact ⟨hres, fun reqs hcontra => by
    rw [hres] at hcontra
    exact InPlaceResult.noConfusion hcontra⟩

/-- Witness for C4's amended theorem: one conforming and one offending
change, a non-nil upload location. -/
theorem applyInPlaceFunctionUpdates_rejects_invalid_witness :
    applyInPlaceFunctionUpdates "bucket"
        (some ⟨"https://x", "svc/code.zip", ""⟩)
        [⟨"Modify", "AWS::Lambda::Function", "MyLambda", "my-lambda"⟩,
          ⟨"Add", "AWS::S3::Bucket", "MyBucket", "bkt"⟩] =
      InPlaceResult.invalidOps
        [invalidInPlaceMsg ⟨"Add", "AWS::S3::Bucket", "MyBucket", "bkt"⟩] := by
  rw [(applyInPlaceFunctionUpdates_rejects_invalid "bucket"
      ⟨"https://x", "svc/code.zip", ""⟩
      [⟨"Modify", "AWS::Lambda::Function", "MyLambda", "my-lambda"⟩,
        ⟨"Add", "AWS::S3::Bucket", "MyBucket", "bkt"⟩]
      ⟨⟨"Add", "AWS::S3::Bucket", "MyBucket", "bkt"⟩, by decide, by decide⟩).1]
  rfl

/-- C10: a non-nil code-archive upload location is an unstated
precondition of the in-place update path: the key name is read from
`s3CodeZipURL` without a nil guard (the nil check guards only the later
version read), so a change set containing a Modify action on a Lambda
function dereferences nil when the upload location is absent, instead of
returning an error — while the same change set with a non-nil location
never reaches the panic. -/
theorem applyInPlaceFunctionUpdates_nil_s3URL_panics :
    applyInPlaceFunctionUpdates "bucket" none
        [⟨"Modify", "AWS::Lambda::Function", "MyLambda", "my-lambda"⟩] =
      InPlaceResult.panicNilDeref ∧
    ∀ u : S3UploadURL, applyInPlaceFunctionUpdates "bucket" (some u)
        [⟨"Modify", "AWS::Lambda::Function", "MyLambda", "my-lambda"⟩] ≠
      InPlaceResult.panicNilDeref := by
  constructor
  · rfl
  · intro u hcontra
    rw [show applyInPlaceFunctionUpdates "bucket" (some u)
        [⟨"Modify", "AWS::Lambda::Function", "MyLambda", "my-lambda"⟩] =
      InPlaceResult.updates
        [mkUpdateRequest "bucket" u
          ⟨"Modify", "AWS::Lambda::Function", "MyLambda", "my-lambda"⟩]
      from by
        unfold applyInPlaceFunctionUpdates
        rw [if_neg (by simp), classifyChanges_some]
        rfl] at hcontra
    exact InPlaceResult.noConfusion hcontra

/-- C9 counterexample: a Lambda-function resource with no `Environment`
block is missing both required variables, yet the aggregated error list
carries a single per-resource entry — not one entry per missing variable
as the claim states. -/
theorem validateSpartaPostconditions_single_entry_counterexample :
    validateSpartaPostconditions [("F", ResourceProps.lambdaFunction none)] =
      Except.error ["Lambda function F does not include environment info"] ∧
    requiredEnvVars.length = 2 ∧
    (spartaPostconditionErrs
        [("F", ResourceProps.lambdaFunction none)]).length = 1 :=
  ⟨rfl, rfl, rfl⟩

theorem resourceValidationErrs_spec (id : String) (props : ResourceProps) :
    (resourceValidationErrs id props).length = expectedErrCount props ∧
    (resourceValidationErrs id props = [] ↔ lacksRequiredEnv props = false) := by
  cases props with
  | other t =>
    simp [resourceValidationErrs, expectedErrCount, lacksRequiredEnv]
  | lambdaFunction env =>
    cases env with
    | none =>
      simp [resourceValidationErrs, expectedErrCount, lacksRequiredEnv]
    | some v =>
      cases v with
      | unsupported t =>
        simp [resourceValidationErrs, expectedErrCount, lacksRequiredEnv]
      | varsMap keys =>
        by_cases h1 : envVarDiscoveryInformation ∈ keys <;>
          by_cases h2 : envVarLogLevel ∈ keys <;>
          simp [resourceValidationErrs, expectedErrCount, lacksRequiredEnv,
            requiredEnvVars, h1, h2]

theorem spartaPostconditionErrs_cons (r : String × ResourceProps)
    (rest : List (String × ResourceProps)) :
    spartaPostconditionErrs (r :: rest) =
      resourceValidationErrs r.1 r.2 ++ spartaPostconditionErrs rest := by
  simp [spartaPostconditionErrs]

theorem spartaPostconditionErrs_nil_iff
    (resources : List (String × ResourceProps)) :
    spartaPostconditionErrs resources = [] ↔
      ∀ r ∈ resources, lacksRequiredEnv r.2 = false := by
  induction resources with
  | nil => simp [spartaPostconditionErrs]
  | cons r rest ih =>
    rw [spartaPostconditionErrs_cons]
    simp only [List.append_eq_nil, ih, List.forall_mem_cons,
      (resourceValidationErrs_spec r.1 r.2).2]

theorem spartaPostconditionErrs_length
    (resources : List (String × ResourceProps)) :
    (spartaPostconditionErrs resources).length =
      (resources.map (fun r => expectedErrCount r.2)).sum := by
  induction resources with
  | nil => simp [spartaPostconditionErrs]
  | cons r rest ih =>
    rw [spartaPostconditionErrs_cons]
    simp [List.length_append, ih, (resourceValidationErrs_spec r.1 r.2).1]

/-- C9 (amended): the postcondition step succeeds exactly when no
Lambda-function resource lacks its required environment (no environment
block, unsupported variables type, or a missing required key); on failure
the single returned error is the aggregated list, holding one entry per
missing variable for each function resource carrying a supported
variables map and one entry per function resource whose environment block
is absent or of an unsupported type. -/
theorem validateSpartaPostconditions_spec
    (resources : List (String × ResourceProps)) :
    (validateSpartaPostconditions resources = Except.ok () ↔
      ∀ r ∈ resources, lacksRequiredEnv r.2 = false) ∧
    (spartaPostconditionErrs resources).length =
      (resources.map (fun r => expectedErrCount r.2)).sum ∧
    ∀ errs, validateSpartaPostconditions resources = Except.error errs →
      errs ≠ [] ∧ errs = spartaPostconditionErrs resources := by
  refine ⟨?_, spartaPostconditionErrs_length resources, ?_⟩
  · unfold validateSpartaPostconditions
    by_cases h : spartaPostconditionErrs resources ≠ []
    · rw [if_pos h]
      constructor
      · intro hc
        exact Except.noConfusion hc
      · intro hall
        exact absurd ((spartaPostconditionErrs_nil_iff resources).mpr hall) h
    · rw [if_neg h]
      constructor
      · intro _
        exact (spartaPostconditionErrs_nil_iff resources).mp (not_not.mp h)
      · intro _
        rfl
  · intro errs herr
    unfold validateSpartaPostconditions at herr
    by_cases h : spartaPostconditionErrs resources ≠ []
    · rw [if_pos h] at herr
      injection herr with he
      exact ⟨he ▸ h, he.symm⟩
    · rw [if_neg h] at herr
      exact Except.noConfusion herr

/-- Witness for C9's amended theorem: a fully annotated function resource
passes; a resource missing only the discovery key yields one entry. -/
theorem validateSpartaPostconditions_spec_witness :
    validateSpartaPostconditions
        [("F", ResourceProps.lambdaFunction (some (EnvVariables.varsMap
          [envVarDiscoveryInformation, envVarLogLevel])))] = Except.ok () ∧
    (spartaPostconditionErrs
        [("G", ResourceProps.lambdaFunction (some (EnvVariables.varsMap
          [envVarLogLevel])))]).length =
      ([("G", ResourceProps.lambdaFunction (some (EnvVariables.varsMap
          [envVarLogLevel])))].map
        (fun r => expectedErrCount r.2)).sum :=
  ⟨(validateSpartaPostconditions_spec
      [("F", ResourceProps.lambdaFunction (some (EnvVariables.varsMap
        [envVarDiscoveryInformation, envVarLogLevel])))]).1.mpr (by decide),
    (validateSpartaPostconditions_spec
      [("G", ResourceProps.lambdaFunction (some (EnvVariables.varsMap
        [envVarLogLevel])))]).2.1⟩

/-- C5: calling `Provision` with an empty function list and no workflow
hooks fails with the "no functions provided" error before any workflow
step executes (no step invoked, no rollback, hence no remote call); with
workflow hooks supplied the empty list only warns and the workflow
proceeds into the step loop. -/
theorem Provision_empty_functions (steps : List StepFn) (s : TxState) :
    (Provision [] none steps s).result =
        some ("No lambda functions provided to Sparta.Provision()") ∧
    (Provision [] none steps s).stepResults = [] ∧
    (Provision [] none steps s).rollbackInvocations = [] ∧
    ∀ h : Unit, Provision [] (some h) steps s = provisionRun steps s := by
  refine ⟨rfl, rfl, rfl, fun h => ?_⟩
  simp [Provision, validateSpartaPreconditions]

/-- C1 (code bug): on the failure path the loop `return`s the wrapped
error right after rollback (provision_build.go:1601), so the finalizer
block after the loop (provision_build.go:1623) is never reached: a
finalizer registered by a failing run is silently dropped, contradicting
the `transaction` type's own documentation ("finalizer functions that are
unconditionally executed following workflow completion, success or
failure", provision_build.go:191) and the spec's "finalizers always run".
On the success path the registered finalizers do run, in registration
order. -/
theorem provision_finalizers_skipped_on_failure :
    (provisionRun
        [fun st => ({ st with finalizerFunctions := st.finalizerFunctions ++ [7] },
          some ("boom"))] ⟨[], []⟩).finalizersInvoked = [] ∧
    (provisionRun
        [fun st => ({ st with finalizerFunctions := st.finalizerFunctions ++ [7] },
          some ("boom"))] ⟨[], []⟩).finalState.finalizerFunctions = [7] ∧
    (provisionRun
        [fun st => ({ st with finalizerFunctions := st.finalizerFunctions ++ [7] },
          some ("boom"))] ⟨[], []⟩).result =
      some (wrapProvisionError ("boom")) ∧
    (provisionRun
        [fun st => ({ st with finalizerFunctions := st.finalizerFunctions ++ [7] },
          none)] ⟨[], []⟩).finalizersInvoked = [7] :=
  ⟨rfl, rfl, rfl, rfl⟩

theorem runStepLoop_spec (steps : List StepFn) (s : TxState) :
    (∀ k e, (runStepLoop steps s).stepResults.get? k = some (some e) →
      (runStepLoop steps s).stepResults.length = k + 1 ∧
      (runStepLoop steps s).rollbackInvocations.length = 1 ∧
      (runStepLoop steps s).result = some (wrapProvisionError e)) ∧
    ((runStepLoop steps s).result = none →
      (runStepLoop steps s).rollbackInvocations = [] ∧
      (runStepLoop steps s).stepResults.length = steps.length) := by
  induction steps generalizing s with
  | nil =>
    constructor
    · intro k e hk
      simp [runStepLoop] at hk
    · intro _
      simp [runStepLoop]
  | cons f rest ih =>
    cases hr : (f s).2 with
    | some e0 =>
      constructor
      · intro k e hk
        simp only [runStepLoop, hr] at hk ⊢
        cases k with
        | zero =>
          simp only [List.get?] at hk
          injection hk with hk1
          injection hk1 with hk2
          subst hk2
          exact ⟨rfl, rfl, rfl⟩
        | succ k =>
          simp [List.get?] at hk
      · intro hres
        simp only [runStepLoop, hr] at hres
        exact Option.noConfusion hres
    | none =>
      constructor
      · intro k e hk
        simp only [runStepLoop, hr] at hk ⊢
        cases k with
        | zero =>
          simp only [List.get?] at hk
          injection hk with hk1
          exact Option.noConfusion hk1
        | succ k =>
          simp only [List.get?] at hk
          have h := (ih (f s).1).1 k e hk
          simp [List.length_cons, h.1, h.2.1, h.2.2]
      · intro hres
        simp only [runStepLoop, hr] at hres ⊢
        have h := (ih (f s).1).2 hres
        simp [h.1, h.2]

theorem provisionRun_projections (steps : List StepFn) (s : TxState) :
    (provisionRun steps s).stepResults = (runStepLoop steps s).stepResults ∧
    (provisionRun steps s).rollbackInvocations =
      (runStepLoop steps s).rollbackInvocations ∧
    (provisionRun steps s).result = (runStepLoop steps s).result := by
  unfold provisionRun
  cases h : (runStepLoop steps s).result <;> simp [h]

/-- C2: when the step at position `k` of a run returns an error, it is
the last step invoked (steps `k+1..end` never execute), rollback executes
exactly once, and `Provision` returns that error wrapped with the
"Failed to provision service" context; when every invoked step succeeds,
rollback never executes and every step of the chain ran. -/
theorem provision_error_path_semantics (steps : List StepFn) (s : TxState) :
    (∀ k e, (provisionRun steps s).stepResults.get? k = some (some e) →
      (provisionRun steps s).stepResults.length = k + 1 ∧
      (provisionRun steps s).rollbackInvocations.length = 1 ∧
      (provisionRun steps s).result = some (wrapProvisionError e)) ∧
    ((provisionRun steps s).result = none →
      (provisionRun steps s).rollbackInvocations = [] ∧
      (provisionRun steps s).stepResults.length = steps.length) := by
  obtain ⟨h1, h2, h3⟩ := provisionRun_projections steps s
  rw [h1, h2, h3]
  exact runStepLoop_spec steps s

/-- Witness for C2: a three-step chain whose second step fails: only two
steps are invoked, rollback runs once, the error comes back wrapped. -/
theorem provision_error_path_semantics_witness :
    (provisionRun [fun st => (st, none), fun st => (st, some ("boom")),
        fun st => (st, none)] ⟨[], []⟩).stepResults.length = 1 + 1 ∧
    (provisionRun [fun st => (st, none), fun st => (st, some ("boom")),
        fun st => (st, none)] ⟨[], []⟩).rollbackInvocations.length = 1 ∧
    (provisionRun [fun st => (st, none), fun st => (st, some ("boom")),
        fun st => (st, none)] ⟨[], []⟩).result =
      some (wrapProvisionError ("boom")) :=
  (provision_error_path_semantics
    [fun st => (st, none), fun st => (st, some ("boom")),
      fun st => (st, none)] ⟨[], []⟩).1 1 ("boom") rfl

theorem mapHasKey_iff (m : List (String × RoleExpr)) (k : String) :
    mapHasKey m k = true ↔ k ∈ mapKeys m := by
  simp only [mapHasKey, mapKeys, List.any_eq_true, List.mem_map,
    decide_eq_true_eq]

theorem foldl_inline_filterMap (serviceName : String)
    (l : List CustomResourceInfo) : ∀ st : RoleResolutionState,
    l.foldl
        (fun acc cr =>
          if cr.hasRoleDefinition then
            resolveInlineDefinition acc
              (roleDefLogicalName serviceName cr.userFunctionName)
          else acc) st =
      (l.filterMap (fun cr =>
        if cr.hasRoleDefinition then
          some (roleDefLogicalName serviceName cr.userFunctionName)
        else none)).foldl resolveInlineDefinition st := by
  induction l with
  | nil => intro st; rfl
  | cons cr rest ih =>
    intro st
    by_cases h : cr.hasRoleDefinition <;>
      simp [List.filterMap_cons, h, ih]

theorem resolveLambdaDefinitions_eq (serviceName : String)
    (st : RoleResolutionState) (info : LambdaAWSInfo) :
    resolveLambdaDefinitions serviceName st info =
      (inlineNamesOf serviceName info).foldl resolveInlineDefinition st := by
  unfold resolveLambdaDefinitions inlineNamesOf
  rw [List.foldl_append, foldl_inline_filterMap]
  by_cases h : info.hasRoleDefinition <;> simp [h]

theorem phase1_eq (serviceName : String) (infos : List LambdaAWSInfo) :
    ∀ st : RoleResolutionState,
    infos.foldl (resolveLambdaDefinitions serviceName) st =
      (inlineLogicalNames serviceName infos).foldl resolveInlineDefinition st := by
  induction infos with
  | nil => intro st; rfl
  | cons info rest ih =>
    intro st
    rw [List.foldl_cons, resolveLambdaDefinitions_eq serviceName st info, ih]
    simp [inlineLogicalNames, List.flatMap_cons, List.foldl_append]

theorem foldInline_spec (ns : List String) : ∀ st : RoleResolutionState,
    mapKeys st.roleMap = st.addedResources →
    mapKeys (ns.foldl resolveInlineDefinition st).roleMap =
        (ns.foldl resolveInlineDefinition st).addedResources ∧
    (ns.foldl resolveInlineDefinition st).getRoleCalls = st.getRoleCalls ∧
    (∀ n, n ∈ (ns.foldl resolveInlineDefinition st).addedResources ↔
      n ∈ st.addedResources ∨ n ∈ ns) ∧
    (st.addedResources.Nodup →
      (ns.foldl resolveInlineDefinition st).addedResources.Nodup) := by
  induction ns with
  | nil =>
    intro st hinv
    exact ⟨hinv, rfl, fun n => by simp, fun h => h⟩
  | cons m rest ih =>
    intro st hinv
    rw [List.foldl_cons]
    by_cases hm : mapHasKey st.roleMap m
    · have hst : resolveInlineDefinition st m = st := by
        unfold resolveInlineDefinition
        rw [if_pos hm]
      rw [hst]
      have hmem : m ∈ st.addedResources := hinv ▸ (mapHasKey_iff _ _).mp hm
      obtain ⟨i1, i2, i3, i4⟩ := ih st hinv
      refine ⟨i1, i2, fun n => ?_, i4⟩
      rw [i3 n]
      simp only [List.mem_cons]
      constructor
      · rintro (h | h)
        · exact Or.inl h
        · exact Or.inr (Or.inr h)
      · rintro (h | h | h)
        · exact Or.inl h
        · exact Or.inl (h ▸ hmem)
        · exact Or.inr h
    · have hst : resolveInlineDefinition st m =
          { roleMap := st.roleMap ++ [(m, RoleExpr.getAtt m)]
            addedResources := st.addedResources ++ [m]
            getRoleCalls := st.getRoleCalls } := by
        unfold resolveInlineDefinition
        rw [if_neg hm]
      rw [hst]
      have hnm : m ∉ st.addedResources := fun hc =>
        hm ((mapHasKey_iff _ _).mpr (hinv ▸ hc))
      have hinv2 : mapKeys (st.roleMap ++ [(m, RoleExpr.getAtt m)]) =
          st.addedResources ++ [m] := by
        simp only [mapKeys, List.map_append, List.map_cons, List.map_nil]
        rw [← mapKeys, hinv]
      obtain ⟨i1, i2, i3, i4⟩ := ih
        (⟨st.roleMap ++ [(m, RoleExpr.getAtt m)],
          st.addedResources ++ [m], st.getRoleCalls⟩ : RoleResolutionState) hinv2
      refine ⟨i1, i2, fun n => ?_, fun hnd => ?_⟩
      · rw [i3 n]
        simp [List.mem_append, List.mem_cons, or_assoc]
      · apply i4
        rw [List.nodup_append]
        exact ⟨hnd, List.nodup_singleton m,
          fun a ha hb => hnm ((List.mem_singleton.mp hb) ▸ ha)⟩

theorem resolveLiteralNames_cons_skip (getRole : String → Except String String)
    (mp : List (String × RoleExpr)) (ad cl : List String)
    (name : String) (rest : List String) (hm : mapHasKey mp name = true) :
    resolveLiteralNames getRole ⟨mp, ad, cl⟩ (name :: rest) =
      resolveLiteralNames getRole ⟨mp, ad, cl⟩ rest := by
  simp only [resolveLiteralNames]
  rw [if_pos hm]

theorem resolveLiteralNames_cons_err (getRole : String → Except String String)
    (mp : List (String × RoleExpr)) (ad cl : List String)
    (name : String) (rest : List String) (e : String)
    (hm : mapHasKey mp name = false) (hg : getRole name = Except.error e) :
    resolveLiteralNames getRole ⟨mp, ad, cl⟩ (name :: rest) =
      Except.error e := by
  simp only [resolveLiteralNames]
  rw [if_neg (by simp [hm]), hg]

theorem resolveLiteralNames_cons_ok (getRole : String → Except String String)
    (mp : List (String × RoleExpr)) (ad cl : List String)
    (name : String) (rest : List String) (arn : String)
    (hm : mapHasKey mp name = false) (hg : getRole name = Except.ok arn) :
    resolveLiteralNames getRole ⟨mp, ad, cl⟩ (name :: rest) =
      resolveLiteralNames getRole
        ⟨mp ++ [(name, RoleExpr.literal arn)], ad, cl ++ [name]⟩ rest := by
  simp only [resolveLiteralNames]
  rw [if_neg (by simp [hm]), hg]

theorem resolveLiterals_ok_iff (getRole : String → Except String String)
    (names : List String) :
    ∀ (mp : List (String × RoleExpr)) (ad cl : List String),
    ((∃ r, resolveLiteralNames getRole ⟨mp, ad, cl⟩ names = Except.ok r) ↔
      ∀ n ∈ names, n ∉ mapKeys mp → ∃ a, getRole n = Except.ok a) := by
  induction names with
  | nil =>
    intro mp ad cl
    simp [resolveLiteralNames]
  | cons m rest ih =>
    intro mp ad cl
    by_cases hm : mapHasKey mp m = true
    · rw [resolveLiteralNames_cons_skip getRole mp ad cl m rest hm, ih mp ad cl]
      have hmem : m ∈ mapKeys mp := (mapHasKey_iff _ _).mp hm
      constructor
      · intro h n hn hnk
        rcases List.mem_cons.mp hn with h1 | h1
        · exact absurd (h1 ▸ hmem) hnk
        · exact h n h1 hnk
      · intro h n hn hnk
        exact h n (List.mem_cons_of_mem m hn) hnk
    · have hmb : mapHasKey mp m = false := by
        simpa using hm
      have hnk0 : m ∉ mapKeys mp := fun hc => hm ((mapHasKey_iff _ _).mpr hc)
      cases hg : getRole m with
      | error e =>
        rw [resolveLiteralNames_cons_err getRole mp ad cl m rest e hmb hg]
        constructor
        · rintro ⟨r, hr⟩
          exact Except.noConfusion hr
        · intro h
          exfalso
          obtain ⟨a, ha⟩ := h m (List.mem_cons_self m rest) hnk0
          rw [hg] at ha
          exact Except.noConfusion ha
      | ok arn =>
        rw [resolveLiteralNames_cons_ok getRole mp ad cl m rest arn hmb hg,
          ih (mp ++ [(m, RoleExpr.literal arn)]) ad (cl ++ [m])]
        have hkeys : mapKeys (mp ++ [(m, RoleExpr.literal arn)]) =
            mapKeys mp ++ [m] := by
          simp [mapKeys]
        constructor
        · intro h n hn hnk
          rcases List.mem_cons.mp hn with h1 | h1
          · exact ⟨arn, h1 ▸ hg⟩
          · by_cases hnm : n = m
            · exact ⟨arn, hnm ▸ hg⟩
            · refine h n h1 ?_
              rw [hkeys]
              simp [List.mem_append, hnk, hnm]
        · intro h n hn hnk
          refine h n (List.mem_cons_of_mem m hn) fun hc => hnk ?_
          rw [hkeys]
          exact List.mem_append.mpr (Or.inl hc)

theorem resolveLiterals_ok_spec (getRole : String → Except String String)
    (names : List String) :
    ∀ (mp : List (String × RoleExpr)) (ad cl : List String)
      (r : RoleResolutionState),
    mapKeys mp = ad ++ cl →
    resolveLiteralNames getRole ⟨mp, ad, cl⟩ names = Except.ok r →
    r.addedResources = ad ∧
    mapKeys r.roleMap = r.addedResources ++ r.getRoleCalls ∧
    (∀ n, n ∈ r.getRoleCalls ↔ n ∈ cl ∨ (n ∈ names ∧ n ∉ mapKeys mp)) ∧
    ((mapKeys mp).Nodup → (mapKeys r.roleMap).Nodup) := by
  induction names with
  | nil =>
    intro mp ad cl r hinv hres
    simp only [resolveLiteralNames] at hres
    injection hres with hres
    subst hres
    exact ⟨rfl, hinv, fun n => by simp, fun h => h⟩
  | cons m rest ih =>
    intro mp ad cl r hinv hres
    by_cases hm : mapHasKey mp m = true
    · rw [resolveLiteralNames_cons_skip getRole mp ad cl m rest hm] at hres
      have hmem : m ∈ mapKeys mp := (mapHasKey_iff _ _).mp hm
      obtain ⟨a1, a2, a3, a4⟩ := ih mp ad cl r hinv hres
      refine ⟨a1, a2, fun n => ?_, a4⟩
      rw [a3 n]
      constructor
      · rintro (h | ⟨h1, h2⟩)
        · exact Or.inl h
        · exact Or.inr ⟨List.mem_cons_of_mem m h1, h2⟩
      · rintro (h | ⟨h1, h2⟩)
        · exact Or.inl h
        · rcases List.mem_cons.mp h1 with h3 | h3
          · exact absurd (h3 ▸ hmem) h2
          · exact Or.inr ⟨h3, h2⟩
    · have hmb : mapHasKey mp m = false := by
        simpa using hm
      have hnk0 : m ∉ mapKeys mp := fun hc => hm ((mapHasKey_iff _ _).mpr hc)
      cases hg : getRole m with
      | error e =>
        rw [resolveLiteralNames_cons_err getRole mp ad cl m rest e hmb hg] at hres
        exact Except.noConfusion hres
      | ok arn =>
        rw [resolveLiteralNames_cons_ok getRole mp ad cl m rest arn hmb hg] at hres
        have hkeys : mapKeys (mp ++ [(m, RoleExpr.literal arn)]) =
            mapKeys mp ++ [m] := by
          simp [mapKeys]
        have hinv2 : mapKeys (mp ++ [(m, RoleExpr.literal arn)]) =
            ad ++ (cl ++ [m]) := by
          rw [hkeys, hinv, List.append_assoc]
        obtain ⟨a1, a2, a3, a4⟩ :=
          ih (mp ++ [(m, RoleExpr.literal arn)]) ad (cl ++ [m]) r hinv2 hres
        refine ⟨a1, a2, fun n => ?_, fun hnd => ?_⟩
        · rw [a3 n]
          constructor
          · rintro (h | ⟨h1, h2⟩)
            · rcases List.mem_append.mp h with h3 | h3
              · exact Or.inl h3
              · have hnm : n = m := List.mem_singleton.mp h3
                subst hnm
                exact Or.inr ⟨List.mem_cons_self n rest, hnk0⟩
            · rw [hkeys] at h2
              exact Or.inr ⟨List.mem_cons_of_mem m h1,
                fun hc => h2 (List.mem_append.mpr (Or.inl hc))⟩
          · rintro (h | ⟨h1, h2⟩)
            · exact Or.inl (List.mem_append.mpr (Or.inl h))
            · rcases List.mem_cons.mp h1 with h3 | h3
              · exact Or.inl (List.mem_append.mpr
                  (Or.inr (List.mem_singleton.mpr h3)))
              · by_cases hnm : n = m
                · exact Or.inl (List.mem_append.mpr
                    (Or.inr (List.mem_singleton.mpr hnm)))
                · refine Or.inr ⟨h3, ?_⟩
                  rw [hkeys]
                  intro hc
                  rcases List.mem_append.mp hc with h4 | h4
                  · exact h2 h4
                  · exact hnm (List.mem_singleton.mp h4)
        · apply a4
          rw [hkeys, List.nodup_append]
          exact ⟨hnd, List.nodup_singleton m,
            fun a ha hb => hnk0 ((List.mem_singleton.mp hb) ▸ ha)⟩

/-- C6 counterexample: a literal role name that coincides with an inline
role-definition logical name (here `"sf"` = service `"s"` + function
`"f"`) is found in the role map populated by the inline pass and is
therefore resolved with ZERO remote existence-check calls, not exactly
one: the run succeeds with an empty `GetRole` call list although `"sf"`
is a literal role name of the run. -/
theorem verifyIAMRoles_collision_counterexample :
    verifyIAMRoles "s" (fun _ => Except.ok ("arn"))
        [⟨"", true, "f", []⟩, ⟨"sf", false, "g", []⟩] =
      Except.ok ⟨[("sf", RoleExpr.getAtt ("sf"))], ["sf"], []⟩ ∧
    "sf" ∈ allRoleNames [⟨"", true, "f", []⟩, ⟨"sf", false, "g", []⟩] := by
  exact ⟨rfl, by decide⟩

/-- C6 (amended): the role-resolution step registers exactly one template
resource per distinct inline role-definition logical name and performs
exactly one remote existence-check call per distinct literal role name
that does not coincide with an inline logical name (a coinciding literal
is resolved from the role map with no remote call), regardless of how
many functions or custom resources reference the same role; the step
succeeds exactly when every such lookup succeeds, so any remote lookup
failure aborts the step. -/
theorem verifyIAMRoles_resolution (serviceName : String)
    (getRole : String → Except String String) (infos : List LambdaAWSInfo) :
    ((∃ r, verifyIAMRoles serviceName getRole infos = Except.ok r) ↔
      ∀ n ∈ allRoleNames infos, n ∉ inlineLogicalNames serviceName infos →
        ∃ a, getRole n = Except.ok a) ∧
    ∀ r, verifyIAMRoles serviceName getRole infos = Except.ok r →
      (∀ n, n ∈ r.addedResources ↔
        n ∈ inlineLogicalNames serviceName infos) ∧
      r.addedResources.Nodup ∧
      (∀ n, n ∈ r.getRoleCalls ↔
        n ∈ allRoleNames infos ∧ n ∉ inlineLogicalNames serviceName infos) ∧
      r.getRoleCalls.Nodup := by
  set F := (inlineLogicalNames serviceName infos).foldl resolveInlineDefinition
    (⟨[], [], []⟩ : RoleResolutionState) with hF
  obtain ⟨p1, p2, p3, p4⟩ := foldInline_spec
    (inlineLogicalNames serviceName infos) (⟨[], [], []⟩ : RoleResolutionState)
    rfl
  have p2n : F.getRoleCalls = ([] : List String) := p2
  have hadded : ∀ n, n ∈ F.addedResources ↔
      n ∈ inlineLogicalNames serviceName infos := fun n => by
    rw [← hF] at p3
    rw [p3 n]
    simp
  have hndadded : F.addedResources.Nodup := by
    rw [← hF] at p4
    exact p4 List.nodup_nil
  have p1n : mapKeys F.roleMap = F.addedResources := by
    rw [← hF] at p1
    exact p1
  have hinv : mapKeys F.roleMap = F.addedResources ++ F.getRoleCalls := by
    rw [p1n, p2n, List.append_nil]
  have hver : verifyIAMRoles serviceName getRole infos =
      resolveLiteralNames getRole
        ⟨F.roleMap, F.addedResources, F.getRoleCalls⟩ (allRoleNames infos) := by
    show resolveLiteralNames getRole
        (infos.foldl (resolveLambdaDefinitions serviceName) ⟨[], [], []⟩)
        (allRoleNames infos) = _
    rw [phase1_eq serviceName infos]
  have hkeysmem : ∀ n, n ∈ mapKeys F.roleMap ↔
      n ∈ inlineLogicalNames serviceName infos := fun n => by
    rw [p1n]
    exact hadded n
  constructor
  · rw [hver, resolveLiterals_ok_iff getRole (allRoleNames infos)
      F.roleMap F.addedResources F.getRoleCalls]
    constructor
    · intro h n hn hni
      exact h n hn fun hc => hni ((hkeysmem n).mp hc)
    · intro h n hn hnk
      exact h n hn fun hc => hnk ((hkeysmem n).mpr hc)
  · intro r hr
    rw [hver] at hr
    obtain ⟨a1, a2, a3, a4⟩ := resolveLiterals_ok_spec getRole
      (allRoleNames infos) F.roleMap F.addedResources F.getRoleCalls r hinv hr
    refine ⟨fun n => ?_, ?_, fun n => ?_, ?_⟩
    · rw [a1]
      exact hadded n
    · rw [a1]
      exact hndadded
    · rw [a3 n, p2n]
      simp only [List.not_mem_nil, false_or]
      constructor
      · rintro ⟨h1, h2⟩
        exact ⟨h1, fun hc => h2 ((hkeysmem n).mpr hc)⟩
      · rintro ⟨h1, h2⟩
        exact ⟨h1, fun hc => h2 ((hkeysmem n).mp hc)⟩
    · have hknd : (mapKeys r.roleMap).Nodup := by
        apply a4
        rw [p1n]
        exact hndadded
      rw [a2] at hknd
      exact (List.nodup_append.mp hknd).2.1

/-- Witness for C6's amended theorem: two functions sharing one literal
role name and one inline definition give one registered resource and one
remote call; the collision-free literal name `"shared"` is called. -/
theorem verifyIAMRoles_resolution_witness :
    ("shared" ∈ allRoleNames
        [⟨"shared", true, "f", []⟩, ⟨"shared", true, "f", []⟩] ∧
      "shared" ∉ inlineLogicalNames "s"
        [⟨"shared", true, "f", []⟩, ⟨"shared", true, "f", []⟩]) ∧
    "sf" ∈ inlineLogicalNames "s"
      [⟨"shared", true, "f", []⟩, ⟨"shared", true, "f", []⟩] := by
  have h := (verifyIAMRoles_resolution "s" (fun _ => Except.ok ("arn"))
      [⟨"shared", true, "f", []⟩, ⟨"shared", true, "f", []⟩]).2
    ⟨[("sf", RoleExpr.getAtt ("sf")), ("shared", RoleExpr.literal ("arn"))],
      ["sf"], ["shared"]⟩ rfl
  exact ⟨(h.2.2.1 "shared").mp (by decide), (h.1 "sf").mp (by decide)⟩

end Sparta
